import Mathlib

/-!
Verification of the MAC-address reporting router (`src/routers/mac_address.py`).

Python strings are modelled as `List Char`; `None`/`NaN` cells as `Option`;
numeric cells (after `pd.to_numeric`) as `Option ℚ` (`none` = NaN); datetime
cells (after `pd.to_datetime`) as `Option Int` (`none` = NaT), ordered by the
usual integer order on their timestamp value.  Only the ASCII behaviour of
`str.strip`/`str.lower`/`str.upper` is modelled, which covers every character
class the code manipulates (hex digits, separators, whitespace).
-/

namespace MacAddr

/-- The whitespace characters removed by Python `str.strip()` (ASCII part). -/
def isPySpace (c : Char) : Bool :=
  c = ' ' || c = '\t' || c = '\n' || c = '\x0d' || c = '\x0b' || c = '\x0c'

/-- Python `str.strip()`: drop whitespace from both ends. -/
def pyStrip (l : List Char) : List Char :=
  ((l.dropWhile isPySpace).reverse.dropWhile isPySpace).reverse

/-- Python `str.lower()` / `str.upper()` on one ASCII character. -/
def lowerChar (c : Char) : Char := c.toLower

def upperChar (c : Char) : Char := c.toUpper

def pyLower (l : List Char) : List Char := l.map lowerChar

def pyUpper (l : List Char) : List Char := l.map upperChar

/-- The sixteen characters of the regex class `[0-9a-f]` used by
`re.sub(r"[^0-9a-f]", "", s)`. -/
def hexDigitsLower : List Char := "0123456789abcdef".toList

def isHexLower (c : Char) : Bool := hexDigitsLower.contains c

/-- `re.sub(r"[^0-9a-f]", "", s)`: keep exactly the `[0-9a-f]` characters. -/
def hexFilter (l : List Char) : List Char := l.filter isHexLower

/-- Python `s.replace("0x", "")`: remove every left-to-right non-overlapping
occurrence of the two-character substring `0x`. -/
def replace0x : List Char → List Char
  | [] => []
  | [c] => [c]
  | c :: d :: rest =>
    if c = '0' && d = 'x' then replace0x rest
    else c :: replace0x (d :: rest)

/-- The strip pipeline of `_fmt_mac` and of `search_mac`'s `mac_query`
normalisation: `str(mac).strip().lower().replace("0x", "")` followed by
`re.sub(r"[^0-9a-f]", "", s)`. -/
def stripMac (l : List Char) : List Char :=
  hexFilter (replace0x (pyLower (pyStrip l)))

/-- The row-side normalisation in `search_mac`
(`df["mac"].astype(str).str.lower().str.replace("0x", ...)...`): identical to
`stripMac` except that no `strip()` is applied. -/
def rowStrip (l : List Char) : List Char :=
  hexFilter (replace0x (pyLower l))

/-- Python slice `s[i:i+2]`. -/
def seg (s : List Char) (i : Nat) : List Char := (s.drop i).take 2

/-- `":".join([s[i:i+2] for i in range(0, 12, 2)]).upper()`. -/
def fmtGroup (s : List Char) : List Char :=
  pyUpper (List.intercalate [':']
    [seg s 0, seg s 2, seg s 4, seg s 6, seg s 8, seg s 10])

/-- `_fmt_mac`.  `none` models a `None`/`NaN` cell (caught by `pd.isna`). -/
def fmtMac : Option (List Char) → List Char
  | none => []
  | some mac =>
    if mac = [] then []
    else
      let s := stripMac mac
      if 12 ≤ s.length then fmtGroup s
      else pyUpper mac

/-- Spec-worded stripping: trim, lowercase, remove a literal `0x` PREFIX only,
then remove every character outside `[0-9a-f]`.  Written from the spec's words
for comparison with the code's `stripMac`. -/
def specStripPrefixOnly (l : List Char) : List Char :=
  let s := pyLower (pyStrip l)
  let s := if s.take 2 = ['0', 'x'] then s.drop 2 else s
  hexFilter s

/-- Spec-worded removal of every left-to-right non-overlapping occurrence of
the substring `0x`, phrased with an explicit occurrence test at each
position. -/
def removeOcc0x (l : List Char) : List Char :=
  match l with
  | [] => []
  | c :: rest =>
    if List.isPrefixOf ['0', 'x'] (c :: rest) then removeOcc0x rest.tail
    else c :: removeOcc0x rest
termination_by l.length
decreasing_by
  · simp [List.length_tail]; omega
  · simp

/-- A value found in a loosely typed numeric cell: `nan` covers Python `None`
and float `NaN` (both falsy under `pd.notna`), `num` a numeric value, `str` a
non-numeric object on which `round` raises. -/
inductive PyVal where
  | nan : PyVal
  | num (q : ℚ) : PyVal
  | str (s : List Char) : PyVal
deriving DecidableEq, Repr

def PyVal.notna : PyVal → Bool
  | .nan => false
  | _ => true

/-- Python `round(x)` on a numeric value: nearest integer, ties to even. -/
def pyRound (q : ℚ) : ℤ :=
  let f := Rat.floor q
  let r := q - (f : ℚ)
  if r < 1 / 2 then f
  else if 1 / 2 < r then f + 1
  else if f % 2 = 0 then f else f + 1

/-- Python `round(x, 1)`: one decimal digit, ties to even. -/
def round1 (q : ℚ) : ℚ := (pyRound (q * 10) : ℚ) / 10

/-- `int(round(v))` inside the try block of `_format_soc_evolution`: `none`
models the `except` path (`round` raising on a non-numeric object). -/
def PyVal.tryRound : PyVal → Option ℤ
  | .num q => some (pyRound q)
  | _ => none

def intChars (i : ℤ) : List Char := (toString i).toList

/-- `_format_soc_evolution`. -/
def formatSoc (s0 s1 : PyVal) : List Char :=
  if s0.notna && s1.notna then
    match s0.tryRound, s1.tryRound with
    | some i0, some i1 =>
      intChars i0 ++ "% → ".toList ++ intChars i1 ++ ['%']
    | _, _ => []
  else []

/-- Python `s.split(",")`. -/
def splitComma : List Char → List (List Char)
  | [] => [[]]
  | c :: rest =>
    if c = ',' then [] :: splitComma rest
    else
      match splitComma rest with
      | s :: ss => (c :: s) :: ss
      | [] => [[c]]

/-- `[s.strip() for s in sites.split(",") if s.strip()]`. -/
def parseSites (sites : List Char) : List (List Char) :=
  ((splitComma sites).map pyStrip).filter (· ≠ [])

def natChars (n : Nat) : List Char := (toString n).toList

/-- `_build_conditions`: returns the `AND`-joined predicate text and the bound
parameters (as an insertion-ordered association list).  Dates are carried as
their `str(...)` form. -/
def buildConditions (sites : List Char) (dateDebut dateFin : Option (List Char))
    (tableAlias : List Char) : List Char × List (List Char × List Char) :=
  let pfx := if tableAlias ≠ [] then tableAlias ++ ['.'] else []
  let conds : List (List Char) := ["1=1".toList]
  let params : List (List Char × List Char) := []
  let (conds, params) :=
    match dateDebut with
    | some d =>
      (conds ++ [pfx ++ "`Datetime start` >= :date_debut".toList],
       params ++ [("date_debut".toList, d)])
    | none => (conds, params)
  let (conds, params) :=
    match dateFin with
    | some d =>
      (conds ++ [pfx ++ "`Datetime start` < DATE_ADD(:date_fin, INTERVAL 1 DAY)".toList],
       params ++ [("date_fin".toList, d)])
    | none => (conds, params)
  let (conds, params) :=
    if sites ≠ [] then
      let siteList := parseSites sites
      if siteList ≠ [] then
        let placeholders :=
          List.intercalate [','] ((List.range siteList.length).map
            (fun i => ':' :: ("site_".toList ++ natChars i)))
        (conds ++ [pfx ++ "Site IN (".toList ++ placeholders ++ [')']],
         params ++ (List.enum siteList).map
           (fun p => ("site_".toList ++ natChars p.1, p.2)))
      else (conds, params)
    else (conds, params)
  (List.intercalate " AND ".toList conds, params)

/-! ### The search operation (`search_mac`)

The SQL fetch (`query_df`) is abstracted as the list of joined rows the data
store returns for the built query; its cells are carried post-coercion:
`pd.to_datetime(..., errors="coerce")` cells as `Option Int` timestamps and
`pd.to_numeric(..., errors="coerce")` cells as `Option ℚ`, `none` standing for
`NaT`/`NaN`.  `pandas.DataFrame.sort_values(..., ascending=False)` is called
with the default `kind="quicksort"`, which numpy only guarantees to produce
*some* ascending argsort of the key array; the model therefore takes the
argsort permutation as an explicit parameter constrained by `admissible`, and
applies it exactly the way `pandas.core.sorting.nargsort` does for
`ascending=False, na_position="last"`: reverse the non-NaN block, argsort it
ascending, reverse the resulting indexer, then append the NaN positions. -/

/-- One row of the joined `kpi_charges_mac LEFT JOIN kpi_sessions` result,
with the `COALESCE`d columns of the SELECT.  `isOk` is `s.is_ok`: `none` when
no session row matched the left join. -/
structure DbRow where
  id : Nat
  site : Option (List Char)
  pdc : Option (List Char)
  dtStart : Option Int
  dtEnd : Option Int
  energy : Option ℚ
  mac : Option (List Char)
  vehicle : Option (List Char)
  socStart : Option ℚ
  socEnd : Option ℚ
  isOk : Option Int
deriving DecidableEq, Repr

/-- `df["mac"].astype(str)`: a missing cell prints as Python `None`. -/
def astypeStr : Option (List Char) → List Char
  | none => "None".toList
  | some s => s

/-- The row-side normalised MAC column `df["mac_norm"]`. -/
def rowNorm (r : DbRow) : List Char := rowStrip (astypeStr r.mac)

/-- Python `b.startswith(a)` on character lists. -/
def startsList : List Char → List Char → Bool
  | [], _ => true
  | _ :: _, [] => false
  | a :: l1, b :: l2 => a = b && startsList l1 l2

/-- Python `a in b` (substring test) on character lists. -/
def containsSub (needle hay : List Char) : Bool :=
  match hay with
  | [] => startsList needle []
  | c :: rest => startsList needle (c :: rest) || containsSub needle rest

/-- `df[df["mac_norm"].str.contains(mac_norm, na=False)]`: `mac_norm` holds
only `[0-9a-f]` characters, so the regex search is a plain substring test. -/
def filterByMac (macNorm : List Char) (rows : List DbRow) : List DbRow :=
  rows.filter (fun r => containsSub macNorm (rowNorm r))

/-- `df["is_ok"].fillna(0).astype(bool)` on one cell. -/
def isOkDerived (r : DbRow) : Bool := r.isOk.getD 0 != 0

def PyVal.ofNum : Option ℚ → PyVal
  | none => .nan
  | some q => .num q

def baseChargeUrl : List Char :=
  "https://elto.nidec-asi-online.com/Charge/detail?id=".toList

/-- The projection of a processed row onto `display_cols` plus the computed
display columns (`evolution_soc`, `mac_formatted`, `elto_link`). -/
structure DisplayRow where
  site : Option (List Char)
  pdc : Option (List Char)
  dtStart : Option Int
  dtEnd : Option Int
  evolutionSoc : List Char
  macFormatted : List Char
  vehicle : Option (List Char)
  energy : Option ℚ
  eltoLink : List Char
deriving DecidableEq, Repr

def display (r : DbRow) : DisplayRow :=
  { site := r.site
    pdc := r.pdc
    dtStart := r.dtStart
    dtEnd := r.dtEnd
    evolutionSoc := formatSoc (PyVal.ofNum r.socStart) (PyVal.ofNum r.socEnd)
    macFormatted := fmtMac r.mac
    vehicle := r.vehicle
    energy := r.energy
    eltoLink := baseChargeUrl ++ natChars r.id }

/-- `p.filterMap l.get?`: the rows of `l` selected by the index list `p`. -/
def applyPerm {α : Type} (l : List α) (p : List Nat) : List α :=
  p.filterMap l.get?

/-- `p` lists each index below `n` exactly once (it has length `n` and covers
`0..n-1`). -/
def permOfRange (p : List Nat) (n : Nat) : Bool :=
  p.length = n && (List.range n).all (fun i => p.contains i)

/-- The key values read in ascending order. -/
def ascBool : List Int → Bool
  | [] => true
  | [_] => true
  | a :: b :: rest => a ≤ b && ascBool (b :: rest)

/-- The contract numpy gives for `argsort(kind="quicksort")` on the reversed
non-NaN block: `p` is a permutation of its index range and reading the block
through `p` yields ascending key values.  Tie order is NOT constrained — the
default quicksort is not stable. -/
def admissible (key : DbRow → Option Int) (rows : List DbRow) (p : List Nat) : Bool :=
  let nn := rows.filter (fun r => (key r).isSome)
  permOfRange p nn.length && ascBool ((applyPerm nn.reverse p).filterMap key)

/-- `df.sort_values(col, ascending=False)` with `na_position="last"`, as
`pandas.core.sorting.nargsort` computes it from an ascending argsort `p` of
the reversed non-NaN block. -/
def sortDesc (key : DbRow → Option Int) (rows : List DbRow) (p : List Nat) : List DbRow :=
  let nn := rows.filter (fun r => (key r).isSome)
  let nans := rows.filter (fun r => !(key r).isSome)
  (applyPerm nn.reverse p).reverse ++ nans

/-- The discriminated result states of `search_mac` (the template contexts,
keyed by which of `error` / `prompt` / `no_data` / `no_results` / the success
payload is passed). -/
inductive SearchResult where
  | tableUnavailable : SearchResult
  | prompt : SearchResult
  | noData : SearchResult
  | noResults : SearchResult
  | success (total okCount nokCount : Nat) (successRate : ℚ)
      (okRows nokRows : List DisplayRow) : SearchResult
deriving DecidableEq, Repr

/-- `search_mac`.  `tableExists` abstracts `table_exists("kpi_charges_mac")`;
`db` is the row set `query_df` returns for the SQL built from the filters
(the filters themselves only shape that SQL, see `buildConditions`); `pOk`
and `pNok` are the quicksort argsort permutations for the two partitions.
The second component counts the `query_df` calls executed. -/
def searchMac (tableExists : Bool) (db : List DbRow) (sites : List Char)
    (dateDebut dateFin : Option (List Char)) (macQuery : List Char)
    (pOk pNok : List Nat) : SearchResult × Nat :=
  if !tableExists then (.tableUnavailable, 0)
  else if macQuery = [] ∨ (pyStrip macQuery).length < 2 then (.prompt, 0)
  else
    let macNorm := stripMac macQuery
    let _sql := buildConditions sites dateDebut dateFin ['c']
    if db = [] then (.noData, 1)
    else
      let filtered := filterByMac macNorm db
      if filtered = [] then (.noResults, 1)
      else
        let total := filtered.length
        let okCount := filtered.countP (fun r => isOkDerived r)
        let nokCount := total - okCount
        let successRate :=
          if total ≠ 0 then round1 ((okCount : ℚ) / (total : ℚ) * 100) else 0
        let dfOk := sortDesc DbRow.dtStart (filtered.filter (fun r => isOkDerived r)) pOk
        let dfNok := sortDesc DbRow.dtStart (filtered.filter (fun r => !isOkDerived r)) pNok
        (.success total okCount nokCount successRate
          (dfOk.map display) (dfNok.map display), 1)

/-! ### The leaderboard operation (`get_top10_unidentified`) -/

/-- One row of `kpi_mac_id`. -/
structure MacRow where
  mac : Option (List Char)
  charges : Int
  taux : Option ℚ
deriving DecidableEq, Repr

/-- One entry of the rendered leaderboard (`Rang` inserted at the front). -/
structure TopEntry where
  rang : Nat
  mac : List Char
  charges : Int
  taux : Option ℚ
deriving DecidableEq, Repr

/-- `ORDER BY nombre_de_charges DESC LIMIT 10`, with the `ORDER BY` given the
same nondeterministic-tie quicksort-style contract as `sortDesc` (SQL fixes
no tie order either); `charges` is never NULL so the key is always present. -/
def topFetch (db : List MacRow) (p : List Nat) : List MacRow :=
  ((applyPerm db.reverse p).reverse).take 10

/-- `p` must be an ascending argsort of the reversed table, read through the
`nombre_de_charges` key. -/
def topAdmissible (db : List MacRow) (p : List Nat) : Bool :=
  permOfRange p db.length &&
    ascBool ((applyPerm db.reverse p).map MacRow.charges)

inductive TopResult where
  | tableUnavailable : TopResult
  | noData : TopResult
  | rows (entries : List TopEntry) : TopResult
deriving DecidableEq, Repr

/-- `get_top10_unidentified`: format the MACs, insert a 1-based `Rang` column,
return the records in fetch order.  The second component counts `query_df`
calls. -/
def getTop10 (tableExists : Bool) (db : List MacRow) (p : List Nat) :
    TopResult × Nat :=
  if !tableExists then (.tableUnavailable, 0)
  else
    let fetched := topFetch db p
    if fetched = [] then (.noData, 1)
    else
      (.rows ((fetched.enum).map (fun e =>
        { rang := e.1 + 1
          mac := fmtMac e.2.mac
          charges := e.2.charges
          taux := e.2.taux })), 1)

/-! ### Statement-side definitions -/

/-- The sixteen characters of the class `[0-9A-F]`. -/
def isHexUpperDigit (c : Char) : Bool := "0123456789ABCDEF".toList.contains c

/-- Direct transcription of the anchored regex
`[0-9A-F]{2}(:[0-9A-F]{2}){5}` applied to the whole string: exactly six
two-hex-digit groups separated by colons. -/
def isCanonicalMac : List Char → Bool
  | [a1, a2, s1, b1, b2, s2, c1, c2, s3, d1, d2, s4, e1, e2, s5, f1, f2] =>
    isHexUpperDigit a1 && isHexUpperDigit a2 && s1 = ':' &&
    isHexUpperDigit b1 && isHexUpperDigit b2 && s2 = ':' &&
    isHexUpperDigit c1 && isHexUpperDigit c2 && s3 = ':' &&
    isHexUpperDigit d1 && isHexUpperDigit d2 && s4 = ':' &&
    isHexUpperDigit e1 && isHexUpperDigit e2 && s5 = ':' &&
    isHexUpperDigit f1 && isHexUpperDigit f2
  | _ => false

/-- Adjacent-pair relation for "sorted by start time descending with absent
start times last": a present time may be followed by any smaller-or-equal
time or by an absent one, an absent time only by absent ones. -/
def descAbsLastB : Option Int → Option Int → Bool
  | _, none => true
  | none, some _ => false
  | some x, some y => y ≤ x

/-! ### Concrete fixture rows used by the closed witness and counterexample
theorems -/

def rowNoInd : DbRow :=
  { id := 1, site := some "S1".toList, pdc := none, dtStart := some 5,
    dtEnd := none, energy := none, mac := some "aabbccddeeff".toList,
    vehicle := some "V1".toList, socStart := none, socEnd := none,
    isOk := none }

def rowOkA : DbRow :=
  { rowNoInd with id := 2, isOk := some 1, vehicle := some "V2".toList }

def rowOkB : DbRow :=
  { rowNoInd with id := 3, isOk := some 1, vehicle := some "V3".toList }

def rowNok : DbRow :=
  { rowNoInd with id := 4, isOk := some 0, vehicle := some "V4".toList }

def topRowA : MacRow := { mac := some "aabbccddeeff".toList, charges := 9, taux := none }

def topRowB : MacRow := { mac := none, charges := 7, taux := some 1 }

/-- The ranked leaderboard entries for the fetch `[topRowA, topRowB]`. -/
def topEntriesAB : List TopEntry :=
  [{ rang := 1, mac := fmtMac topRowA.mac, charges := 9, taux := none },
   { rang := 2, mac := fmtMac topRowB.mac, charges := 7, taux := some 1 }]

/-! ## Helper lemmas -/

theorem permOfRange_perm {p : List Nat} {n : Nat} (h : permOfRange p n = true) :
    p.Perm (List.range n) := by
  rw [permOfRange, Bool.and_eq_true] at h
  obtain ⟨hlen, hall⟩ := h
  have hsub : List.range n ⊆ p := by
    intro i hi
    have := List.all_eq_true.mp hall i hi
    simpa using this
  have hsp : List.Subperm (List.range n) p :=
    List.subperm_of_subset (List.nodup_range n) hsub
  have hl : p.length ≤ (List.range n).length := by
    simp [List.length_range, Nat.le_of_eq (by exact_mod_cast of_decide_eq_true hlen)]
  exact (hsp.perm_of_length_le hl).symm

theorem filterMap_get_range {α : Type} (l : List α) :
    (List.range l.length).filterMap l.get? = l := by
  induction l with
  | nil => simp
  | cons a t ih =>
    rw [List.length_cons, List.range_succ_eq_map, List.filterMap_cons]
    simp only [List.get?_cons_zero, List.filterMap_map]
    have : (List.get? (a :: t)) ∘ Nat.succ = t.get? := by
      funext i
      simp
    rw [this, ih]

theorem applyPerm_perm {α : Type} {l : List α} {p : List Nat}
    (h : p.Perm (List.range l.length)) : (applyPerm l p).Perm l := by
  have := h.filterMap l.get?
  rwa [filterMap_get_range] at this

theorem mem_applyPerm {α : Type} {l : List α} {p : List Nat} {a : α}
    (h : a ∈ applyPerm l p) : a ∈ l := by
  rw [applyPerm, List.mem_filterMap] at h
  obtain ⟨i, _, hget⟩ := h
  exact List.get?_mem hget

theorem ascBool_chain : ∀ {l : List Int}, ascBool l = true →
    List.Chain' (· ≤ ·) l
  | [], _ => List.chain'_nil
  | [_], _ => List.chain'_singleton _
  | a :: b :: rest, h => by
    rw [ascBool, Bool.and_eq_true] at h
    exact List.Chain'.cons (by exact_mod_cast of_decide_eq_true h.1)
      (ascBool_chain h.2)

theorem sortDesc_perm {key : DbRow → Option Int} {rows : List DbRow} {p : List Nat}
    (h : admissible key rows p = true) : (sortDesc key rows p).Perm rows := by
  rw [admissible, Bool.and_eq_true] at h
  have hperm : p.Perm (List.range
      (rows.filter (fun r => (key r).isSome)).reverse.length) := by
    rw [List.length_reverse]
    exact permOfRange_perm h.1
  have h1 : (applyPerm (rows.filter (fun r => (key r).isSome)).reverse p).Perm
      (rows.filter (fun r => (key r).isSome)) :=
    (applyPerm_perm hperm).trans (List.reverse_perm _)
  have h2 : (sortDesc key rows p).Perm
      ((rows.filter (fun r => (key r).isSome)) ++
        rows.filter (fun r => !(key r).isSome)) := by
    rw [sortDesc]
    exact ((List.reverse_perm _).trans h1).append (List.Perm.refl _)
  exact h2.trans (List.filter_append_perm _ rows)

theorem map_key_all_isSome {key : DbRow → Option Int} :
    ∀ {L : List DbRow}, (∀ r ∈ L, (key r).isSome = true) →
    L.map key = (L.filterMap key).map some
  | [], _ => rfl
  | r :: t, h => by
    obtain ⟨v, hv⟩ := Option.isSome_iff_exists.mp (h r (List.mem_cons_self r t))
    rw [List.map_cons, List.filterMap_cons, hv, List.map_cons,
      map_key_all_isSome (fun x hx => h x (List.mem_cons_of_mem r hx))]

theorem chain_descAbsLast_none : ∀ {m : List (Option Int)},
    (∀ x ∈ m, x = none) → List.Chain' (fun a b => descAbsLastB a b = true) m
  | [], _ => List.chain'_nil
  | [_], _ => List.chain'_singleton _
  | a :: b :: rest, h => by
    have hb : b = none := h b (by simp)
    have htail : ∀ x ∈ b :: rest, x = none := by
      intro x hx
      exact h x (List.mem_cons_of_mem a hx)
    refine List.Chain'.cons ?_ (chain_descAbsLast_none htail)
    subst hb
    cases a <;> rfl

theorem sortDesc_chain {key : DbRow → Option Int} {rows : List DbRow} {p : List Nat}
    (h : admissible key rows p = true) :
    List.Chain' (fun a b => descAbsLastB a b = true)
      ((sortDesc key rows p).map key) := by
  rw [admissible, Bool.and_eq_true] at h
  set nn := rows.filter (fun r => (key r).isSome) with hnn
  set X := applyPerm nn.reverse p with hX
  have hXmem : ∀ r ∈ X, (key r).isSome = true := by
    intro r hr
    have : r ∈ nn.reverse := mem_applyPerm hr
    rw [List.mem_reverse] at this
    exact List.of_mem_filter (p := fun r => (key r).isSome) this
  have hmapX : X.map key = (X.filterMap key).map some :=
    map_key_all_isSome hXmem
  have hasc : List.Chain' (· ≤ ·) (X.filterMap key) := ascBool_chain h.2
  rw [sortDesc, List.map_append, List.map_reverse]
  rw [List.chain'_append]
  refine ⟨?_, ?_, ?_⟩
  · rw [hmapX, List.chain'_reverse, List.chain'_map]
    exact hasc.imp (fun a b hab => by simpa [descAbsLastB, Function.flip_def] using hab)
  · refine chain_descAbsLast_none ?_
    intro x hx
    rw [List.mem_map] at hx
    obtain ⟨r, hr, hrx⟩ := hx
    have hns := List.of_mem_filter (p := fun r => !(key r).isSome) hr
    rw [← hrx]
    cases hkr : key r with
    | none => rfl
    | some v => simp [hkr] at hns
  · intro x _ y hy
    have hy' : y ∈ (rows.filter (fun r => !(key r).isSome)).map key :=
      List.mem_of_mem_head? hy
    rw [List.mem_map] at hy'
    obtain ⟨r, hr, hrx⟩ := hy'
    have hnone := List.of_mem_filter (p := fun r => !(key r).isSome) hr
    rw [← hrx]
    cases hkr : key r with
    | none => cases x <;> rfl
    | some v => simp [hkr] at hnone

theorem searchMac_success_eq {tEx : Bool} {db : List DbRow} {sites : List Char}
    {dateDebut dateFin : Option (List Char)} {macQuery : List Char}
    {pOk pNok : List Nat} {t ok nok : Nat} {rate : ℚ}
    {okR nokR : List DisplayRow} {n : Nat}
    (h : searchMac tEx db sites dateDebut dateFin macQuery pOk pNok =
      (.success t ok nok rate okR nokR, n)) :
    t = (filterByMac (stripMac macQuery) db).length ∧
    ok = (filterByMac (stripMac macQuery) db).countP (fun r => isOkDerived r) ∧
    nok = t - ok ∧
    rate = (if t ≠ 0 then round1 ((ok : ℚ) / (t : ℚ) * 100) else 0) ∧
    okR = (sortDesc DbRow.dtStart
      ((filterByMac (stripMac macQuery) db).filter (fun r => isOkDerived r)) pOk).map
        display ∧
    nokR = (sortDesc DbRow.dtStart
      ((filterByMac (stripMac macQuery) db).filter (fun r => !isOkDerived r)) pNok).map
        display ∧
    n = 1 := by
  rw [searchMac] at h
  split at h
  · simp at h
  · split at h
    · simp at h
    · split at h
      · simp at h
      · dsimp only at h
        split at h
        · simp at h
        · simp only [Prod.mk.injEq, SearchResult.success.injEq] at h
          obtain ⟨⟨ht, hok, hnok, hrate, hokR, hnokR⟩, hn⟩ := h
          subst ht hok
          refine ⟨rfl, rfl, hnok.symm, ?_, hokR.symm, hnokR.symm, hn.symm⟩
          rw [← hrate]

theorem getTop10_rows_eq {tEx : Bool} {db : List MacRow} {p : List Nat}
    {entries : List TopEntry} {n : Nat}
    (h : getTop10 tEx db p = (.rows entries, n)) :
    entries = (topFetch db p).enum.map (fun e =>
      { rang := e.1 + 1
        mac := fmtMac e.2.mac
        charges := e.2.charges
        taux := e.2.taux }) ∧ n = 1 ∧ topFetch db p ≠ [] := by
  rw [getTop10] at h
  split at h
  · simp at h
  · dsimp only at h
    split at h
    · simp at h
    · simp only [Prod.mk.injEq, TopResult.rows.injEq] at h
      exact ⟨h.1.symm, h.2.symm, by assumption⟩

theorem replace0x_eq_removeOcc : ∀ l, replace0x l = removeOcc0x l
  | [] => by simp [replace0x, removeOcc0x]
  | [c] => by
    rw [replace0x, removeOcc0x]
    simp [List.isPrefixOf, removeOcc0x]
  | c :: d :: rest => by
    rw [replace0x, removeOcc0x]
    by_cases hc : c = '0'
    · by_cases hd : d = 'x'
      · subst hc hd
        simp [List.isPrefixOf, replace0x_eq_removeOcc rest]
      · simp [List.isPrefixOf, hc, replace0x_eq_removeOcc (d :: rest), Ne.symm hd]
        exact fun h => absurd h hd
    · simp [List.isPrefixOf, replace0x_eq_removeOcc (d :: rest), Ne.symm hc, hc]

theorem replace0x_sublist : ∀ l, (replace0x l).Sublist l
  | [] => by simp [replace0x]
  | [c] => by simp [replace0x]
  | c :: d :: rest => by
    rw [replace0x]
    split
    · exact (replace0x_sublist rest).trans
        ((List.sublist_cons_self d rest).trans (List.sublist_cons_self c _))
    · exact (replace0x_sublist (d :: rest)).cons₂ c

theorem isHexUpperDigit_upperChar {c : Char} (h : isHexLower c = true) :
    isHexUpperDigit (upperChar c) = true := by
  have hmem : c ∈ hexDigitsLower := by
    simpa [isHexLower] using h
  have hall : ∀ c ∈ hexDigitsLower, isHexUpperDigit (upperChar c) = true := by decide
  exact hall c hmem

theorem hexFilter_all {l : List Char} : ∀ c ∈ hexFilter l, isHexLower c = true :=
  fun _ hc => List.of_mem_filter hc

theorem pyStrip_subset {l : List Char} : pyStrip l ⊆ l := by
  intro c hc
  rw [pyStrip, List.mem_reverse] at hc
  have h1 := (List.dropWhile_sublist (l := (l.dropWhile isPySpace).reverse)
    (p := isPySpace)).subset hc
  rw [List.mem_reverse] at h1
  exact (List.dropWhile_sublist (l := l) (p := isPySpace)).subset h1

theorem stripMac_nil_of_no_hex {l : List Char}
    (h : ∀ c ∈ l, isHexLower (lowerChar c) = false) : stripMac l = [] := by
  rw [stripMac, hexFilter, List.filter_eq_nil_iff]
  intro c hc
  have hmem : c ∈ pyLower (pyStrip l) := (replace0x_sublist _).subset hc
  rw [pyLower, List.mem_map] at hmem
  obtain ⟨c', hc', rfl⟩ := hmem
  simp [h c' (pyStrip_subset hc')]

theorem containsSub_nil_left : ∀ hay : List Char, containsSub [] hay = true
  | [] => rfl
  | _ :: rest => by
    rw [containsSub]
    simp [startsList, containsSub_nil_left rest]

theorem filterByMac_nil_query (rows : List DbRow) :
    filterByMac [] rows = rows := by
  rw [filterByMac]
  exact List.filter_eq_self.mpr (fun r _ => containsSub_nil_left (rowNorm r))

theorem exists_cons_of_le_length {s : List Char} {k : Nat} (h : k + 1 ≤ s.length) :
    ∃ c t, s = c :: t := by
  cases s with
  | nil => simp at h
  | cons a t => exact ⟨a, t, rfl⟩

theorem isCanonicalMac_fmtGroup {s : List Char}
    (hall : ∀ c ∈ s, isHexLower c = true) (h12 : 12 ≤ s.length) :
    isCanonicalMac (fmtGroup s) = true := by
  obtain ⟨c1, s, rfl⟩ := exists_cons_of_le_length (s := s) (k := 11) (by omega)
  rw [List.length_cons] at h12
  obtain ⟨c2, s, rfl⟩ := exists_cons_of_le_length (s := s) (k := 10) (by omega)
  rw [List.length_cons] at h12
  obtain ⟨c3, s, rfl⟩ := exists_cons_of_le_length (s := s) (k := 9) (by omega)
  rw [List.length_cons] at h12
  obtain ⟨c4, s, rfl⟩ := exists_cons_of_le_length (s := s) (k := 8) (by omega)
  rw [List.length_cons] at h12
  obtain ⟨c5, s, rfl⟩ := exists_cons_of_le_length (s := s) (k := 7) (by omega)
  rw [List.length_cons] at h12
  obtain ⟨c6, s, rfl⟩ := exists_cons_of_le_length (s := s) (k := 6) (by omega)
  rw [List.length_cons] at h12
  obtain ⟨c7, s, rfl⟩ := exists_cons_of_le_length (s := s) (k := 5) (by omega)
  rw [List.length_cons] at h12
  obtain ⟨c8, s, rfl⟩ := exists_cons_of_le_length (s := s) (k := 4) (by omega)
  rw [List.length_cons] at h12
  obtain ⟨c9, s, rfl⟩ := exists_cons_of_le_length (s := s) (k := 3) (by omega)
  rw [List.length_cons] at h12
  obtain ⟨c10, s, rfl⟩ := exists_cons_of_le_length (s := s) (k := 2) (by omega)
  rw [List.length_cons] at h12
  obtain ⟨c11, s, rfl⟩ := exists_cons_of_le_length (s := s) (k := 1) (by omega)
  rw [List.length_cons] at h12
  obtain ⟨c12, s, rfl⟩ := exists_cons_of_le_length (s := s) (k := 0) (by omega)
  have hx : ∀ c ∈ [c1, c2, c3, c4, c5, c6, c7, c8, c9, c10, c11, c12],
      isHexUpperDigit (upperChar c) = true := by
    intro c hc
    refine isHexUpperDigit_upperChar (hall c ?_)
    simp only [List.mem_cons] at hc ⊢
    tauto
  simp only [fmtGroup, seg, List.intercalate, pyUpper, List.drop, List.take,
    List.intersperse, List.flatten, List.map, List.append, isCanonicalMac,
    List.cons_append, List.nil_append]
  simp only [Bool.and_eq_true, decide_eq_true_eq]
  refine ⟨⟨⟨⟨⟨⟨⟨⟨⟨⟨⟨⟨⟨⟨⟨⟨?_, ?_⟩, ?_⟩, ?_⟩, ?_⟩, ?_⟩, ?_⟩, ?_⟩, ?_⟩, ?_⟩,
    ?_⟩, ?_⟩, ?_⟩, ?_⟩, ?_⟩, ?_⟩, ?_⟩ <;>
    first
      | exact hx _ (by simp)
      | decide

theorem seg_take12 (s : List Char) {i : Nat} (h : i + 2 ≤ 12) :
    seg (s.take 12) i = seg s i := by
  rw [seg, seg, List.drop_take, List.take_take]
  congr 1
  omega

theorem fmtGroup_take12 (s : List Char) : fmtGroup s = fmtGroup (s.take 12) := by
  rw [fmtGroup, fmtGroup,
    seg_take12 s (i := 0) (by omega), seg_take12 s (i := 2) (by omega),
    seg_take12 s (i := 4) (by omega), seg_take12 s (i := 6) (by omega),
    seg_take12 s (i := 8) (by omega), seg_take12 s (i := 10) (by omega)]

/-! ## Claim theorems -/

/-- C7: `format_soc_transition` returns `"<round(start)>% → <round(end)>%"`
(integer rounding, ties to even) whenever both arguments are present and
numeric, and the empty string whenever either is absent (`None`/`NaN`) or
non-numeric; the function is total — malformed numeric input lands in the
empty-string fallback instead of raising. -/
theorem c7_formatSoc (s0 s1 : PyVal) :
    formatSoc s0 s1 =
      match s0, s1 with
      | .num a, .num b =>
        intChars (pyRound a) ++ "% → ".toList ++ intChars (pyRound b) ++ ['%']
      | _, _ => [] := by
  cases s0 <;> cases s1 <;> rfl

/-- C6: whenever the backing record table exists and `mac_query`'s trimmed
length is below 2 (including the empty query), `search_mac` returns the
prompt (`InputTooShort`) state and executes no data fetch, for every filter
combination and every data-store contents. -/
theorem c6_inputTooShort (db : List DbRow) (sites : List Char)
    (dateDebut dateFin : Option (List Char)) (macQuery : List Char)
    (pOk pNok : List Nat) (h : (pyStrip macQuery).length < 2) :
    searchMac true db sites dateDebut dateFin macQuery pOk pNok = (.prompt, 0) := by
  rw [searchMac]
  rw [if_neg (by simp), if_pos (Or.inr h)]

theorem c6_witness :
    searchMac true [rowNoInd] [] none none ['a'] [] [] = (.prompt, 0) :=
  c6_inputTooShort [rowNoInd] [] none none ['a'] [] [] (by decide)

/-- C10: a `mac_query` that passes the 2-character guard but contains no
hexadecimal character (case-insensitively) normalises to the empty string,
and the MAC substring filter of `search_mac` then retains every fetched row —
the query matches all records instead of none. -/
theorem c10_empty_norm (macQuery : List Char) (db : List DbRow)
    (_hlen : 2 ≤ (pyStrip macQuery).length)
    (hnohex : ∀ c ∈ macQuery, isHexLower (lowerChar c) = false) :
    stripMac macQuery = [] ∧ filterByMac (stripMac macQuery) db = db := by
  have h0 := stripMac_nil_of_no_hex hnohex
  exact ⟨h0, by rw [h0]; exact filterByMac_nil_query db⟩

theorem c10_witness :
    2 ≤ (pyStrip "zz".toList).length ∧
    stripMac "zz".toList = [] ∧
    filterByMac (stripMac "zz".toList) [rowNoInd] = [rowNoInd] := by
  have h := c10_empty_norm "zz".toList [rowNoInd] (by decide) (by decide)
  exact ⟨by decide, h.1, h.2⟩

/-- C3 counterexample: on the input `"00x1"` the code's stripping drops the
hex digit `0` of the interior occurrence `0x` (yielding `"01"`), while the
claimed prefix-only stripping yields `"001"` — so `0x` is NOT removed only as
a prefix, and hex digits outside a prefix ARE dropped. -/
theorem c3_counterexample :
    stripMac "00x1".toList = "01".toList ∧
    specStripPrefixOnly "00x1".toList = "001".toList ∧
    stripMac "00x1".toList ≠ specStripPrefixOnly "00x1".toList :=
  ⟨by decide, by decide, by decide⟩

/-- C3 amended: the stripping step used by `normalize_mac` (and, without the
trim, by `search`'s `mac_query` normalisation) equals trimming, lowercasing,
removing EVERY left-to-right non-overlapping occurrence of the substring
`0x` — not only a prefix occurrence — and removing every character outside
`[0-9a-f]`; hex digits belonging to such an occurrence are dropped. -/
theorem c3_strip_amended (l : List Char) :
    stripMac l = hexFilter (removeOcc0x (pyLower (pyStrip l))) ∧
    rowStrip l = hexFilter (removeOcc0x (pyLower l)) := by
  constructor
  · rw [stripMac, replace0x_eq_removeOcc]
  · rw [rowStrip, replace0x_eq_removeOcc]

/-- C2: for every non-null, non-empty raw input whose stripped form has at
least 12 hex characters, `normalize_mac` returns a string matching
`^[0-9A-F]{2}(:[0-9A-F]{2}){5}$` built from only the first 12 characters of
the stripped form; for every input whose stripped form has fewer than 12 hex
characters it returns the original raw input uppercased unmodified. -/
theorem c2_normalizeMac (mac : List Char) (hne : mac ≠ []) :
    (12 ≤ (stripMac mac).length →
      fmtMac (some mac) = fmtGroup ((stripMac mac).take 12) ∧
      isCanonicalMac (fmtMac (some mac)) = true) ∧
    ((stripMac mac).length < 12 → fmtMac (some mac) = pyUpper mac) := by
  constructor
  · intro h12
    have hfmt : fmtMac (some mac) = fmtGroup (stripMac mac) := by
      rw [fmtMac]
      rw [if_neg hne, if_pos h12]
    refine ⟨by rw [hfmt, fmtGroup_take12], ?_⟩
    rw [hfmt]
    exact isCanonicalMac_fmtGroup (fun c hc => List.of_mem_filter hc) h12
  · intro hlt
    rw [fmtMac]
    rw [if_neg hne, if_neg (by omega)]

theorem c2_witness :
    fmtMac (some "AA-BB-CC-DD-EE-FF".toList) =
      fmtGroup ((stripMac "AA-BB-CC-DD-EE-FF".toList).take 12) ∧
    isCanonicalMac (fmtMac (some "AA-BB-CC-DD-EE-FF".toList)) = true :=
  (c2_normalizeMac "AA-BB-CC-DD-EE-FF".toList (by decide)).1 (by decide)

theorem buildConditions_fst_no_sites {s : List Char} (hp : parseSites s = [])
    (dateDebut dateFin : Option (List Char)) (tableAlias : List Char) :
    (buildConditions s dateDebut dateFin tableAlias).1 =
      (buildConditions [] dateDebut dateFin tableAlias).1 := by
  rw [buildConditions.eq_def, buildConditions.eq_def]
  rcases dateDebut with _ | d1 <;> rcases dateFin with _ | d2 <;>
    · dsimp only
      by_cases hs : s = [] <;> simp [hs, hp]

/-- C5: `_build_conditions` with no filters returns the tautological
predicate `1=1` and an empty parameter mapping; with `sites = "A, B"` it
parses, trims, and binds exactly two named placeholders and two parameters;
and the predicate text never embeds a site value — it depends only on the
number of parsed sites. -/
theorem c5_queryBuilder :
    buildConditions [] none none [] = ("1=1".toList, []) ∧
    buildConditions "A, B".toList none none [] =
      ("1=1 AND Site IN (:site_0,:site_1)".toList,
        [("site_0".toList, "A".toList), ("site_1".toList, "B".toList)]) ∧
    (∀ s1 s2 dateDebut dateFin tableAlias,
      (parseSites s1).length = (parseSites s2).length →
      (buildConditions s1 dateDebut dateFin tableAlias).1 =
        (buildConditions s2 dateDebut dateFin tableAlias).1) := by
  refine ⟨by decide, by decide, ?_⟩
  intro s1 s2 dateDebut dateFin tableAlias h
  by_cases hp1 : parseSites s1 = []
  · have hp2 : parseSites s2 = [] := by
      rw [hp1] at h
      exact List.length_eq_zero.mp h.symm
    rw [buildConditions_fst_no_sites hp1, buildConditions_fst_no_sites hp2]
  · have hp2 : parseSites s2 ≠ [] := by
      intro he
      rw [he] at h
      exact hp1 (List.length_eq_zero.mp h)
    have hs1 : s1 ≠ [] := by
      intro he
      subst he
      exact hp1 rfl
    have hs2 : s2 ≠ [] := by
      intro he
      subst he
      exact hp2 rfl
    rw [buildConditions.eq_def, buildConditions.eq_def]
    rcases dateDebut with _ | d1 <;> rcases dateFin with _ | d2 <;>
      · dsimp only
        simp only [ne_eq, hs1, hs2, hp1, hp2, not_false_eq_true, if_true, h]

theorem c5_witness :
    (buildConditions "A, B".toList none none []).1 =
      (buildConditions "X,Y".toList none none []).1 :=
  c5_queryBuilder.2.2 "A, B".toList "X,Y".toList none none [] (by decide)

/-- C8: in every success state of `search_mac`, `total = ok_count +
not_ok_count`, and `success_rate` is `round(ok_count / total * 100, 1)` when
`total > 0` and `0` when `total = 0`. -/
theorem c8_totals (tEx : Bool) (db : List DbRow) (sites : List Char)
    (dateDebut dateFin : Option (List Char)) (macQuery : List Char)
    (pOk pNok : List Nat) (t ok nok : Nat) (rate : ℚ)
    (okR nokR : List DisplayRow) (n : Nat)
    (h : searchMac tEx db sites dateDebut dateFin macQuery pOk pNok =
      (.success t ok nok rate okR nokR, n)) :
    t = ok + nok ∧
    rate = (if 0 < t then round1 ((ok : ℚ) / (t : ℚ) * 100) else 0) := by
  obtain ⟨ht, hok, hnok, hrate, -, -, -⟩ := searchMac_success_eq h
  constructor
  · have hle : ok ≤ t := by
      rw [ht, hok]
      exact List.countP_le_length _
    omega
  · rw [hrate]
    by_cases h0 : t = 0 <;> simp [h0, Nat.pos_of_ne_zero]

theorem c8_witness :
    2 = 1 + 1 ∧
    round1 (((1 : ℕ) : ℚ) / ((2 : ℕ) : ℚ) * 100) =
      (if 0 < 2 then round1 (((1 : ℕ) : ℚ) / ((2 : ℕ) : ℚ) * 100) else 0) :=
  c8_totals true [rowOkA, rowNok] [] none none "aa".toList [0] [0]
    2 1 1 (round1 (((1 : ℕ) : ℚ) / ((2 : ℕ) : ℚ) * 100))
    [display rowOkA] [display rowNok] 1 rfl

/-- C1 counterexample: a fetched row whose joined success indicator is
absent (`is_ok` NULL) gets `is_ok = false` from `fillna(0).astype(bool)`, is
NOT counted in `ok_count` (which is 0 here), and lands in the not-ok
partition — contradicting the claim that absent defaults to true/ok. -/
theorem c1_counterexample :
    rowNoInd.isOk = none ∧
    isOkDerived rowNoInd = false ∧
    searchMac true [rowNoInd] [] none none "aa".toList [] [0] =
      (.success 1 0 1 (round1 (((0 : ℕ) : ℚ) / ((1 : ℕ) : ℚ) * 100)) []
        [display rowNoInd], 1) :=
  ⟨rfl, rfl, rfl⟩

/-- C1 amended: for every fetched row that survives the MAC filter and whose
joined success indicator is absent, the derived `is_ok` flag is FALSE (the
row is treated as not ok), the row is counted in `not_ok_count`, and its
display projection is placed in the not-ok partition. -/
theorem c1_absent_isOk (tEx : Bool) (db : List DbRow) (sites : List Char)
    (dateDebut dateFin : Option (List Char)) (macQuery : List Char)
    (pOk pNok : List Nat) (t ok nok : Nat) (rate : ℚ)
    (okR nokR : List DisplayRow)
    (h : searchMac tEx db sites dateDebut dateFin macQuery pOk pNok =
      (.success t ok nok rate okR nokR, 1))
    (hadm : admissible DbRow.dtStart
      ((filterByMac (stripMac macQuery) db).filter (fun r => !isOkDerived r))
      pNok = true)
    {r : DbRow} (hr : r ∈ filterByMac (stripMac macQuery) db)
    (hnone : r.isOk = none) :
    isOkDerived r = false ∧
    display r ∈ nokR ∧
    nok = ((filterByMac (stripMac macQuery) db).filter
      (fun x => !isOkDerived x)).length ∧
    ok = (filterByMac (stripMac macQuery) db).countP (fun x => isOkDerived x) := by
  have hd : isOkDerived r = false := by
    rw [isOkDerived, hnone]
    rfl
  obtain ⟨ht, hok, hnok, -, -, hnokR, -⟩ := searchMac_success_eq h
  have hmem : r ∈ (filterByMac (stripMac macQuery) db).filter
      (fun x => !isOkDerived x) :=
    List.mem_filter.mpr ⟨hr, by rw [hd]; rfl⟩
  refine ⟨hd, ?_, ?_, hok⟩
  · rw [hnokR]
    exact List.mem_map_of_mem display ((sortDesc_perm hadm).mem_iff.mpr hmem)
  · have hsplit := (List.filter_append_perm
      (fun r => isOkDerived r) (filterByMac (stripMac macQuery) db)).length_eq
    rw [List.length_append] at hsplit
    rw [hnok, ht, hok, List.countP_eq_length_filter]
    omega

theorem c1_witness :
    isOkDerived rowNoInd = false ∧
    display rowNoInd ∈ [display rowNoInd] ∧
    1 = ((filterByMac (stripMac "aa".toList) [rowNoInd]).filter
      (fun x => !isOkDerived x)).length ∧
    0 = (filterByMac (stripMac "aa".toList) [rowNoInd]).countP
      (fun x => isOkDerived x) :=
  c1_absent_isOk true [rowNoInd] [] none none "aa".toList [] [0]
    1 0 1 (round1 (((0 : ℕ) : ℚ) / ((1 : ℕ) : ℚ) * 100))
    [] [display rowNoInd] rfl (by decide) (by decide) rfl

/-- C4 counterexample: `sort_values` is called with the default
`kind="quicksort"`, whose only contract is an ascending argsort; under the
admissible argsort `[1, 0]` of the two equal-keyed rows, the ok partition
comes out as `[rowOkB, rowOkA]` — the reverse of their order in the filtered
result set — so the sort is not stable. -/
theorem c4_counterexample :
    rowOkA.dtStart = rowOkB.dtStart ∧
    admissible DbRow.dtStart
      ((filterByMac (stripMac "aa".toList) [rowOkA, rowOkB]).filter
        (fun r => isOkDerived r)) [1, 0] = true ∧
    searchMac true [rowOkA, rowOkB] [] none none "aa".toList [1, 0] [] =
      (.success 2 2 0 (round1 (((2 : ℕ) : ℚ) / ((2 : ℕ) : ℚ) * 100))
        [display rowOkB, display rowOkA] [], 1) ∧
    display rowOkA ≠ display rowOkB :=
  ⟨rfl, by decide, rfl, by decide⟩

/-- C4 amended: in every success state each partition is sorted by start time
descending with absent start times last, and each partition is a permutation
of the corresponding subset of the filtered result set; the relative order of
rows with equal (or both absent) start times is NOT guaranteed, since the
sort uses pandas' default (unstable) quicksort kind. -/
theorem c4_sortDesc (tEx : Bool) (db : List DbRow) (sites : List Char)
    (dateDebut dateFin : Option (List Char)) (macQuery : List Char)
    (pOk pNok : List Nat) (t ok nok : Nat) (rate : ℚ)
    (okR nokR : List DisplayRow)
    (h : searchMac tEx db sites dateDebut dateFin macQuery pOk pNok =
      (.success t ok nok rate okR nokR, 1))
    (hOk : admissible DbRow.dtStart
      ((filterByMac (stripMac macQuery) db).filter (fun r => isOkDerived r))
      pOk = true)
    (hNok : admissible DbRow.dtStart
      ((filterByMac (stripMac macQuery) db).filter (fun r => !isOkDerived r))
      pNok = true) :
    List.Chain' (fun a b => descAbsLastB a b = true)
      (okR.map DisplayRow.dtStart) ∧
    List.Chain' (fun a b => descAbsLastB a b = true)
      (nokR.map DisplayRow.dtStart) ∧
    okR.Perm (((filterByMac (stripMac macQuery) db).filter
      (fun r => isOkDerived r)).map display) ∧
    nokR.Perm (((filterByMac (stripMac macQuery) db).filter
      (fun r => !isOkDerived r)).map display) := by
  obtain ⟨-, -, -, -, hokR, hnokR, -⟩ := searchMac_success_eq h
  have hkey : ∀ l : List DbRow,
      (l.map display).map DisplayRow.dtStart = l.map DbRow.dtStart := by
    intro l
    rw [List.map_map]
    rfl
  subst hokR hnokR
  refine ⟨?_, ?_, ?_, ?_⟩
  · rw [hkey]
    exact sortDesc_chain hOk
  · rw [hkey]
    exact sortDesc_chain hNok
  · exact (sortDesc_perm hOk).map display
  · exact (sortDesc_perm hNok).map display

theorem c4_witness :
    List.Chain' (fun a b => descAbsLastB a b = true)
      ([display rowOkB, display rowOkA].map DisplayRow.dtStart) ∧
    List.Chain' (fun a b => descAbsLastB a b = true)
      (([] : List DisplayRow).map DisplayRow.dtStart) ∧
    ([display rowOkB, display rowOkA]).Perm
      (((filterByMac (stripMac "aa".toList) [rowOkA, rowOkB]).filter
        (fun r => isOkDerived r)).map display) ∧
    (([] : List DisplayRow)).Perm
      (((filterByMac (stripMac "aa".toList) [rowOkA, rowOkB]).filter
        (fun r => !isOkDerived r)).map display) :=
  c4_sortDesc true [rowOkA, rowOkB] [] none none "aa".toList [1, 0] []
    2 2 0 (round1 (((2 : ℕ) : ℚ) / ((2 : ℕ) : ℚ) * 100))
    [display rowOkB, display rowOkA] [] rfl (by decide) (by decide)

theorem map_add_one_range' : ∀ s n : Nat,
    (List.range' s n).map (fun x => x + 1) = List.range' (s + 1) n
  | _, 0 => rfl
  | s, n + 1 => by
    rw [List.range'_succ, List.range'_succ, List.map_cons,
      map_add_one_range' (s + 1) n]

/-- C9: whenever the leaderboard fetch is non-empty, `get_top10_unidentified`
returns at most 10 entries; ranks are 1-based and strictly increasing by 1 in
list order; each MAC is normalised with `_fmt_mac`; and the list order is
exactly the fetch order (descending charge count) with no client-side
re-sorting. -/
theorem c9_leaderboard (tEx : Bool) (db : List MacRow) (p : List Nat)
    (entries : List TopEntry) (n : Nat)
    (h : getTop10 tEx db p = (.rows entries, n))
    (hadm : topAdmissible db p = true) :
    entries.length ≤ 10 ∧
    entries.map TopEntry.rang = List.range' 1 entries.length ∧
    entries.map TopEntry.mac = (topFetch db p).map (fun r => fmtMac r.mac) ∧
    entries.map TopEntry.charges = (topFetch db p).map MacRow.charges ∧
    List.Chain' (fun a b : Int => b ≤ a) (entries.map TopEntry.charges) := by
  obtain ⟨he, -, -⟩ := getTop10_rows_eq h
  subst he
  have hlen : ((topFetch db p).enum.map (fun e =>
      ({ rang := e.1 + 1, mac := fmtMac e.2.mac, charges := e.2.charges,
         taux := e.2.taux } : TopEntry))).length = (topFetch db p).length := by
    rw [List.length_map, List.enum_length]
  have hcharges : ((topFetch db p).enum.map (fun e =>
      ({ rang := e.1 + 1, mac := fmtMac e.2.mac, charges := e.2.charges,
         taux := e.2.taux } : TopEntry))).map TopEntry.charges =
      (topFetch db p).map MacRow.charges := by
    rw [List.map_map]
    have : (TopEntry.charges ∘ fun e : Nat × MacRow =>
        ({ rang := e.1 + 1, mac := fmtMac e.2.mac, charges := e.2.charges,
           taux := e.2.taux } : TopEntry)) = MacRow.charges ∘ Prod.snd := rfl
    rw [this, ← List.map_map, List.enum_map_snd]
  refine ⟨?_, ?_, ?_, hcharges, ?_⟩
  · rw [hlen, topFetch]
    exact List.length_take_le 10 _
  · rw [List.map_map, hlen]
    have : (TopEntry.rang ∘ fun e : Nat × MacRow =>
        ({ rang := e.1 + 1, mac := fmtMac e.2.mac, charges := e.2.charges,
           taux := e.2.taux } : TopEntry)) =
        (fun x => x + 1) ∘ Prod.fst := rfl
    rw [this, ← List.map_map, List.enum_map_fst, List.range_eq_range',
      map_add_one_range']
  · rw [List.map_map]
    have : (TopEntry.mac ∘ fun e : Nat × MacRow =>
        ({ rang := e.1 + 1, mac := fmtMac e.2.mac, charges := e.2.charges,
           taux := e.2.taux } : TopEntry)) =
        (fun r => fmtMac r.mac) ∘ Prod.snd := rfl
    rw [this, ← List.map_map, List.enum_map_snd]
  · rw [hcharges, topAdmissible, Bool.and_eq_true] at *
    have hasc := ascBool_chain hadm.2
    have hrev : List.Chain' (fun a b : Int => b ≤ a)
        (((applyPerm db.reverse p).map MacRow.charges).reverse) := by
      rw [List.chain'_reverse]
      exact hasc.imp (fun a b hab => hab)
    have : (topFetch db p).map MacRow.charges =
        (((applyPerm db.reverse p).map MacRow.charges).reverse).take 10 := by
      rw [topFetch, List.map_take, List.map_reverse]
    rw [this]
    exact hrev.take 10

theorem c9_witness :
    topEntriesAB.length ≤ 10 ∧
    topEntriesAB.map TopEntry.rang = List.range' 1 topEntriesAB.length ∧
    topEntriesAB.map TopEntry.mac =
      (topFetch [topRowA, topRowB] [0, 1]).map (fun r => fmtMac r.mac) ∧
    topEntriesAB.map TopEntry.charges =
      (topFetch [topRowA, topRowB] [0, 1]).map MacRow.charges ∧
    List.Chain' (fun a b : Int => b ≤ a)
      (topEntriesAB.map TopEntry.charges) :=
  c9_leaderboard true [topRowA, topRowB] [0, 1] topEntriesAB 1 rfl (by decide)

end MacAddr
